import Mathlib

/-
Shallow embedding of the keri-acdc repository:
  - src/src/error.rs          (the Error enum)
  - src/examples/acdc-e2e.rs  (the Store, the KeriStore impl for it, the Vault)
The external crates cesride (Serder/Creder parsing) and serde_json are opaque
collaborators of the code; they are modelled as a Codec record of opaque
functions, with a coherence property (the parser-reported SAID of an event
equals the "d" field of its JSON body) where a claim requires it.
Rust strings are modelled as Lean String; the byte slices taken at
parser-reported raw lengths are char slices (all CESR/JSON content is ASCII).
A Rust call outcome is Res: Ok, Err, or crash (a Rust panic, e.g. an
out-of-bounds Vec index or Option::unwrap on None).
-/

namespace KeriAcdc

/-- The error enum of src/src/error.rs. -/
inductive Error where
  | Decoding
  | Encoding
  | OutOfOrder
  | Programmer
  | SchemaValidation (msg : String)
  | Value
  | Verification
  | Validation
deriving DecidableEq

/-- Outcome of a Rust call: `Ok`, `Err`, or a panic (modelled as `crash`). -/
inductive Res (α : Type) where
  | ok (a : α)
  | err (e : Error)
  | crash
deriving DecidableEq

def Res.bind {α β : Type} : Res α → (α → Res β) → Res β
  | .ok a, f => f a
  | .err e, _ => .err e
  | .crash, _ => .crash

instance : Monad Res where
  pure := .ok
  bind := Res.bind

/-- Propagation of an external collaborator result with the `?` operator. -/
def Res.ofE {α : Type} : Except Error α → Res α
  | .ok a => .ok a
  | .error e => .err e

def Res.isOk {α : Type} : Res α → Bool
  | .ok _ => true
  | _ => false

@[simp] theorem Res.ok_bind {α β : Type} (a : α) (f : α → Res β) :
    (Res.ok a >>= f) = f a := rfl

@[simp] theorem Res.err_bind {α β : Type} (e : Error) (f : α → Res β) :
    ((Res.err e : Res α) >>= f) = .err e := rfl

@[simp] theorem Res.crash_bind {α β : Type} (f : α → Res β) :
    ((Res.crash : Res α) >>= f) = .crash := rfl

@[simp] theorem Res.pure_eq {α : Type} (a : α) : (pure a : Res α) = .ok a := rfl

@[simp] theorem Res.ofE_ok {α : Type} (a : α) : Res.ofE (.ok a) = .ok a := rfl

@[simp] theorem Res.ofE_error {α : Type} (e : Error) :
    Res.ofE (Except.error e : Except Error α) = .err e := rfl

@[simp] theorem Res.isOk_ok {α : Type} (a : α) : (Res.ok a).isOk = true := rfl

def isOkE {α : Type} : Except Error α → Bool
  | .ok _ => true
  | .error _ => false

/-- Model of a serde_json / cesride data Value. -/
inductive Json where
  | null
  | bool (b : Bool)
  | num (n : Int)
  | str (s : String)
  | arr (elems : List Json)
  | obj (fields : List (String × Json))

/-- Lookup of the declared address field: `value["d"]`. -/
def Json.dField : Json → Option Json
  | .obj fields => fields.lookup "d"
  | _ => none

/-- Model of `value["d"].to_string()` in cesride: succeeds exactly when the
declared address field is a string (the only case the code relies on). -/
def dStringOf (v : Json) : Except Error String :=
  match v.dField with
  | some (.str s) => .ok s
  | _ => .error .Value

/-- Opaque model of `keri::KeySet` (declared in the library, not under the
example sources); the store only serializes and deserializes it. -/
structure KeySet where
  blob : String
deriving DecidableEq

/-- Result of `cesride::Serder::new_with_raw`: the calls the store makes. -/
structure Serder where
  saidR : Except Error String
  rawLen : Nat
  estR : Except Error Bool

/-- Result of `cesride::Creder::new_with_raw`: the calls the store makes. -/
structure Creder where
  saidR : Except Error String
  rawLen : Nat
  statusR : Except Error (Option String)

/-- The external parser/serializer collaborators, as opaque functions. -/
structure Codec where
  serder : String → Except Error Serder
  jsonParse : String → Except Error Json
  keySetOf : String → Except Error KeySet
  keySetJson : KeySet → Except Error String
  creder : String → Except Error Creder

/-- Chained `Serder::new_with_raw(e)?.est()?`. -/
def estOf (cd : Codec) (e : String) : Except Error Bool := do
  let s ← cd.serder e
  s.estR

/-- An event string is establishment-kind when the parser says so. -/
def isEstB (cd : Codec) (e : String) : Bool :=
  match estOf cd e with
  | .ok true => true
  | _ => false

/-- Coherence of the external parser with the JSON body: when an event both
parses as a Serder with a SAID and has a JSON prefix whose "d" field is a
string, the two addresses agree (true of cesride, whose said() reads "d"). -/
def Codec.coherent (cd : Codec) : Prop :=
  ∀ e s said v label, cd.serder e = .ok s → s.saidR = .ok said →
    cd.jsonParse (e.take s.rawLen) = .ok v → dStringOf v = .ok label →
    label = said

/-- HashMap update: `insert` overwrites. -/
def upd {α : Type} (m : String → Option α) (k : String) (v : α) :
    String → Option α :=
  fun q => if q = k then some v else m q

@[simp] theorem upd_self {α : Type} (m : String → Option α) (k : String) (v : α) :
    upd m k v k = some v := by
  simp [upd]

theorem upd_other {α : Type} (m : String → Option α) {k q : String} (v : α)
    (h : q ≠ k) : upd m k v q = m q := by
  simp [upd, h]

theorem upd_upd {α : Type} (m : String → Option α) (k : String) (a b : α) :
    upd (upd m k a) k b = upd m k b := by
  funext q
  by_cases h : q = k <;> simp [upd, h]

theorem upd_isSome {α : Type} {m : String → Option α} {q : String}
    (k : String) (v : α) (h : (m q).isSome = true) :
    ((upd m k v) q).isSome = true := by
  by_cases hq : q = k <;> simp [upd, hq, h]

/-- The Store struct of src/examples/acdc-e2e.rs; HashMaps are modelled as
functions to Option, Vecs as Lists. -/
structure Store where
  pfx : String
  keys : String → Option (List String)
  sads : String → Option String
  attachments : String → Option String
  acdcs : String → Option (List String)
  tels : String → Option (List String)
  kels : String → Option (List String)

/-- `Store::new`: empty maps, except the acdcs map seeded with the
"issued" and "received" lists. -/
def Store.new (p : String) : Store where
  pfx := p
  keys := fun _ => none
  sads := fun _ => none
  attachments := fun _ => none
  acdcs := fun q => if q = "issued" ∨ q = "received" then some [] else none
  tels := fun _ => none
  kels := fun _ => none

/-- `Store::insert_sad_internal`: parse the JSON, read the declared "d"
address, index the document body under it (no recomputation of the address). -/
def insert_sad_internal (cd : Codec) (st : Store) (sad : String) : Res Store := do
  let v ← Res.ofE (cd.jsonParse sad)
  let label ← Res.ofE (dStringOf v)
  pure { st with sads := upd st.sads label sad }

/-- `Store::insert_event`: split the framed event at the parser-reported raw
length, store the SAD prefix (under its declared address) and the attachment
suffix (under the parser-reported SAID); return the SAID. -/
def insert_event (cd : Codec) (st : Store) (event : String) :
    Res (Store × String) := do
  let s ← Res.ofE (cd.serder event)
  let said ← Res.ofE s.saidR
  let atc := event.drop s.rawLen
  let st1 ← insert_sad_internal cd st (event.take s.rawLen)
  pure ({ st1 with attachments := upd st1.attachments said atc }, said)

/-- `Store::get_sad_and_attachments`: `Value` when either half is missing,
otherwise the concatenation of the two halves. -/
def get_sad_and_attachments (st : Store) (said : String) : Res String :=
  match st.sads said, st.attachments said with
  | some sad, some atc => .ok (sad ++ atc)
  | _, _ => .err .Value

/-- `KeriStore::insert_keys` impl: ensure the per-identifier Vec exists, then
push the serialized key set. -/
def insert_keys (cd : Codec) (st : Store) (pre : String) (ks : KeySet) :
    Res Store :=
  let st1 := if (st.keys pre).isSome then st
             else { st with keys := upd st.keys pre [] }
  match cd.keySetJson ks with
  | .error e => .err e
  | .ok value =>
      .ok { st1 with keys := upd st1.keys pre (((st1.keys pre).getD []) ++ [value]) }

/-- `KeriStore::insert_sad` impl: delegates to insert_sad_internal. -/
def insert_sad (cd : Codec) (st : Store) (sad : String) : Res Store :=
  insert_sad_internal cd st sad

/-- `KeriStore::insert_acdc` impl: parse the Creder, push the SAID on the
issued/received list, store the SAD prefix and the attachment suffix. -/
def insert_acdc (cd : Codec) (st : Store) (acdc : String) (issued : Bool) :
    Res Store := do
  let cr ← Res.ofE (cd.creder acdc)
  let said ← Res.ofE cr.saidR
  let atc := acdc.drop cr.rawLen
  let label := if issued then "issued" else "received"
  let st1 ← match st.acdcs label with
    | none => (Res.crash : Res Store)
    | some l => pure { st with acdcs := upd st.acdcs label (l ++ [said]) }
  let st2 ← insert_sad_internal cd st1 (acdc.take cr.rawLen)
  pure { st2 with attachments := upd st2.attachments said atc }

/-- `KeriStore::insert_key_event` impl: insert the framed event, ensure the
per-identifier KEL Vec exists, push the SAID. -/
def insert_key_event (cd : Codec) (st : Store) (pre event : String) :
    Res Store := do
  let r ← insert_event cd st event
  let st2 := if (r.1.kels pre).isSome then r.1
             else { r.1 with kels := upd r.1.kels pre [] }
  pure { st2 with kels := upd st2.kels pre (((st2.kels pre).getD []) ++ [r.2]) }

/-- `KeriStore::insert_transaction_event` impl: as insert_key_event, on the
TEL map. -/
def insert_transaction_event (cd : Codec) (st : Store) (pre event : String) :
    Res Store := do
  let r ← insert_event cd st event
  let st2 := if (r.1.tels pre).isSome then r.1
             else { r.1 with tels := upd r.1.tels pre [] }
  pure { st2 with tels := upd st2.tels pre (((st2.tels pre).getD []) ++ [r.2]) }

/-- `KeriStore::get_current_keys` impl: `self.keys.get(pre).unwrap()` panics
when the identifier was never initialized; with fewer than 2 entries the
result is `Decoding`; otherwise the second-to-last entry is deserialized. -/
def get_current_keys (cd : Codec) (st : Store) (pre : String) : Res KeySet :=
  match st.keys pre with
  | none => .crash
  | some keys =>
      if keys.length < 2 then .err .Decoding
      else Res.ofE (cd.keySetOf (keys.getD (keys.length - 2) ""))

/-- `KeriStore::get_next_keys` impl: unwrap panics on a never-initialized
identifier; `Decoding` when empty; otherwise the last entry is deserialized. -/
def get_next_keys (cd : Codec) (st : Store) (pre : String) : Res KeySet :=
  match st.keys pre with
  | none => .crash
  | some keys =>
      if keys.isEmpty then .err .Decoding
      else Res.ofE (cd.keySetOf (keys.getD (keys.length - 1) ""))

/-- `KeriStore::get_sad` impl: `Value` when absent, else the parsed document. -/
def get_sad (cd : Codec) (st : Store) (said : String) : Res Json :=
  match st.sads said with
  | none => .err .Value
  | some s => Res.ofE (cd.jsonParse s)

/-- `KeriStore::get_acdc` impl: delegates to get_sad_and_attachments. -/
def get_acdc (st : Store) (said : String) : Res String :=
  get_sad_and_attachments st said

/-- `KeriStore::get_key_event` impl: `Value` for an unknown identifier; the
bound check is the strict `kel.len() < version`, after which `kel[version]`
panics when `version` equals the list length. -/
def get_key_event (st : Store) (pre : String) (version : Nat) : Res String :=
  match st.kels pre with
  | none => .err .Value
  | some kel =>
      if kel.length < version then .err .Value
      else if h : version < kel.length then
        get_sad_and_attachments st (kel.get ⟨version, h⟩)
      else .crash

/-- `KeriStore::get_transaction_event` impl: as get_key_event, on the TEL map. -/
def get_transaction_event (st : Store) (pre : String) (version : Nat) :
    Res String :=
  match st.tels pre with
  | none => .err .Value
  | some tel =>
      if tel.length < version then .err .Value
      else if h : version < tel.length then
        get_sad_and_attachments st (tel.get ⟨version, h⟩)
      else .crash

/-- The loop body of get_kel/get_tel: fetch both halves of every listed SAID. -/
def getAll (st : Store) : List String → Res (List String)
  | [] => .ok []
  | said :: rest => do
      let s ← get_sad_and_attachments st said
      let r ← getAll st rest
      pure (s :: r)

/-- `KeriStore::get_kel` impl. -/
def get_kel (st : Store) (pre : String) : Res (List String) :=
  match st.kels pre with
  | none => .err .Value
  | some saids => getAll st saids

/-- `KeriStore::get_tel` impl. -/
def get_tel (st : Store) (pre : String) : Res (List String) :=
  match st.tels pre with
  | none => .err .Value
  | some saids => getAll st saids

/-- The loop of `get_latest_establishment_event_as_of_sn`: iterate the
reversed KEL with running index `i`, skip positions above the bound, return
the first establishment event; `Value` when the scan exhausts. -/
def estScanRev (cd : Codec) (len sn : Nat) : List String → Nat → Res (String × Nat)
  | [], _ => .err .Value
  | e :: rest, i =>
      if len - i - 1 > sn then estScanRev cd len sn rest (i + 1)
      else match cd.serder e with
        | .error er => .err er
        | .ok s =>
            match s.estR with
            | .error er => .err er
            | .ok true => .ok (e, len - i - 1)
            | .ok false => estScanRev cd len sn rest (i + 1)

/-- `KeriStore::get_latest_establishment_event_as_of_sn` impl. -/
def get_latest_establishment_event_as_of_sn (cd : Codec) (st : Store)
    (pre : String) (sn : Nat) : Res (String × Nat) := do
  let kel ← get_kel st pre
  estScanRev cd kel.length sn kel.reverse 0

/-- `KeriStore::get_latest_establishment_event` impl: the bound is the KEL
length itself. -/
def get_latest_establishment_event (cd : Codec) (st : Store) (pre : String) :
    Res (String × Nat) := do
  let kel ← get_kel st pre
  get_latest_establishment_event_as_of_sn cd st pre kel.length

/-- `KeriStore::count_key_events` impl: 0 for a never-seen subject. -/
def count_key_events (st : Store) (pre : String) : Res Nat :=
  match st.kels pre with
  | none => .ok 0
  | some kel => .ok kel.length

/-- `KeriStore::count_transaction_events` impl: 0 for a never-seen subject. -/
def count_transaction_events (st : Store) (pre : String) : Res Nat :=
  match st.tels pre with
  | none => .ok 0
  | some tel => .ok tel.length

/-- The counting loop of `count_establishment_events`. -/
def countEstLoop (cd : Codec) : List String → Nat → Res Nat
  | [], count => .ok count
  | e :: rest, count =>
      match cd.serder e with
      | .error er => .err er
      | .ok s =>
          match s.estR with
          | .error er => .err er
          | .ok b => countEstLoop cd rest (if b then count + 1 else count)

/-- `KeriStore::count_establishment_events` impl: requires the KEL to exist
(get_kel fails `Value` otherwise), then counts establishment events. -/
def count_establishment_events (cd : Codec) (st : Store) (pre : String) :
    Res Nat := do
  let kel ← get_kel st pre
  countEstLoop cd kel 0

/-- Result of `acdc::expand_acdc`: the calls Vault::fetch_acdc makes on it. -/
structure Expanded where
  issuerR : Except Error String
  crdJsonR : Except Error String

/-- The opaque selective-disclosure expander collaborator. -/
def Expander : Type :=
  Creder → List (List String) → Store → Except Error Expanded

/-- The Vault struct of src/examples/acdc-e2e.rs. -/
structure Vault where
  store : Store
  pfx : String
  registry : String

/-- `Vault::fetch_acdc`: load the credential, expand it with the top
attribute block path `["a"]` plus `["a", key]` per requested key, optionally
gather the issuer KEL and the registry and credential TELs, and append the
expanded SAD JSON plus the original attachment suffix. -/
def fetch_acdc (cd : Codec) (ex : Expander) (v : Vault) (said : String)
    (to_disclose : List String) (full : Bool) : Res String := do
  let acdc_string ← get_acdc v.store said
  let cr ← Res.ofE (cd.creder acdc_string)
  let to_expand := ["a"] :: to_disclose.map (fun key => ["a", key])
  let expanded ← Res.ofE (ex cr to_expand v.store)
  let messages ← if full then do
      let issuer ← Res.ofE expanded.issuerR
      let kel ← get_kel v.store issuer
      let statusOpt ← Res.ofE cr.statusR
      let mgmtPre ← match statusOpt with
        | some s => (pure s : Res String)
        | none => .crash
      let mgmt_tel ← get_tel v.store mgmtPre
      let csaid ← Res.ofE cr.saidR
      let vc_tel ← get_tel v.store csaid
      pure (String.join kel ++ String.join mgmt_tel ++ String.join vc_tel)
    else pure ""
  let crdJson ← Res.ofE expanded.crdJsonR
  pure (messages ++ (crdJson ++ acdc_string.drop cr.rawLen))

/-- Message classification used by the ingestion pipeline. -/
inductive MsgKind where
  | keyEvent
  | transactionEvent
  | credential
deriving DecidableEq

/-- A classified framed message as the ingestion pipeline sees it: its kind,
its subject, its prior-reference (absent only at sequence 0) and the framed
bytes. -/
structure Msg where
  kind : MsgKind
  pre : String
  priorRef : Option String
  framed : String

/-- The address at the current tail of a ledger list. -/
def tailRef (ledger : List String) : Option String :=
  ledger.getLast?

/-- The ledger list a message is routed to. -/
def ledgerOf (st : Store) (m : Msg) : Option (List String) :=
  match m.kind with
  | .keyEvent => st.kels m.pre
  | .transactionEvent => st.tels m.pre
  | .credential => none

/-- Modelled from the spec: the per-message step of the ingestion pipeline
`keri::parsing::ingest_messages`, whose body is not under the example
sources. Per spec section 4.2 it classifies the message, validates that a
ledger-affecting event's prior-reference matches the current ledger tail's
address — failing `OutOfOrder` without mutating the ledger when it does
not — and routes the message to the matching Store operation. The result
pairs the (possibly unchanged) store with the failure, if any. -/
def ingest_message (cd : Codec) (st : Store) (m : Msg) : Store × Option Error :=
  match m.kind with
  | .credential =>
      match insert_acdc cd st m.framed false with
      | .ok st1 => (st1, none)
      | .err e => (st, some e)
      | .crash => (st, some .Programmer)
  | k =>
      if m.priorRef ≠ tailRef ((ledgerOf st m).getD []) then
        (st, some .OutOfOrder)
      else
        match (if k = .keyEvent then insert_key_event cd st m.pre m.framed
               else insert_transaction_event cd st m.pre m.framed) with
        | .ok st1 => (st1, none)
        | .err e => (st, some e)
        | .crash => (st, some .Programmer)

/-- Both halves of a document are present in storage. -/
def StoredBoth (st : Store) (a : String) : Prop :=
  (st.sads a).isSome = true ∧ (st.attachments a).isSome = true

/-- The two-halves invariant: every address present in any KEL or TEL list
has both its SAD half and its attachment half in storage. -/
def Inv (st : Store) : Prop :=
  (∀ pre l, st.kels pre = some l → ∀ a ∈ l, StoredBoth st a) ∧
  (∀ pre l, st.tels pre = some l → ∀ a ∈ l, StoredBoth st a)

/-- Stores reachable from `Store::new` by successful store operations. -/
inductive Reachable (cd : Codec) : Store → Prop where
  | new (p : String) : Reachable cd (Store.new p)
  | keys (st st' : Store) (pre : String) (ks : KeySet) :
      Reachable cd st → insert_keys cd st pre ks = .ok st' → Reachable cd st'
  | sad (st st' : Store) (s : String) :
      Reachable cd st → insert_sad cd st s = .ok st' → Reachable cd st'
  | acdc (st st' : Store) (a : String) (issued : Bool) :
      Reachable cd st → insert_acdc cd st a issued = .ok st' → Reachable cd st'
  | key_event (st st' : Store) (pre e : String) :
      Reachable cd st → insert_key_event cd st pre e = .ok st' → Reachable cd st'
  | transaction_event (st st' : Store) (pre e : String) :
      Reachable cd st → insert_transaction_event cd st pre e = .ok st' →
      Reachable cd st'

/-- A concrete codec: every event parses with SAID "S", raw length 2,
establishment kind; every JSON body is an object with "d" = "S". -/
def cd0 : Codec where
  serder := fun _ => .ok ⟨.ok "S", 2, .ok true⟩
  jsonParse := fun _ => .ok (.obj [("d", .str "S")])
  keySetOf := fun s => .ok ⟨s⟩
  keySetJson := fun ks => .ok ks.blob
  creder := fun _ => .ok ⟨.ok "S", 2, .ok (some "R")⟩

theorem cd0_coherent : Codec.coherent cd0 := by
  intro e s said v label h1 h2 h3 h4
  simp only [cd0] at h1 h3
  cases h1
  cases h3
  simp only at h2
  cases h2
  simp [dStringOf, Json.dField, List.lookup] at h4
  exact h4.symm

/-- A concrete store: one KEL and one TEL for identifier "i", both holding
the single address "s0", whose halves are "SAD" and "ATC". -/
def stc : Store where
  pfx := "p"
  keys := fun _ => none
  sads := fun q => if q = "s0" then some "SAD" else none
  attachments := fun q => if q = "s0" then some "ATC" else none
  acdcs := fun q => if q = "issued" ∨ q = "received" then some [] else none
  tels := fun q => if q = "i" then some ["s0"] else none
  kels := fun q => if q = "i" then some ["s0"] else none

/-- A concrete store whose key-set history for "i" has exactly one entry. -/
def stk : Store :=
  { Store.new "p" with keys := fun q => if q = "i" then some ["k1"] else none }

/-- C1: the claim says get_key_event and get_transaction_event fail with
`Value` on every out-of-range index, in particular at the list length. The
code's bound check is the strict `kel.len() < version`, so at `version`
equal to the list length the guard passes and the vector index panics; the
strictly-greater case does return `Value`, and in-range indices return the
stored event. Evaluated here on a one-event ledger. -/
theorem get_key_event_boundary :
    get_key_event stc "i" 0 = .ok "SADATC" ∧
    get_key_event stc "i" 1 = .crash ∧
    get_key_event stc "i" 2 = .err .Value ∧
    get_transaction_event stc "i" 0 = .ok "SADATC" ∧
    get_transaction_event stc "i" 1 = .crash ∧
    get_transaction_event stc "i" 2 = .err .Value := by
  decide

/-- C2: the claim says get_current_keys and get_next_keys fail with
`Decoding` also for an identifier whose key-set history was never
initialized. The code calls `self.keys.get(pre).unwrap()`, which panics for
such an identifier; the Decoding failure and the second-to-last/last entry
results hold only once the history exists. Evaluated on the fresh store and
on a one-entry history. -/
theorem get_keys_missing_history :
    get_current_keys cd0 (Store.new "p") "i" = .crash ∧
    get_next_keys cd0 (Store.new "p") "i" = .crash ∧
    get_current_keys cd0 stk "i" = .err .Decoding ∧
    get_next_keys cd0 stk "i" = .ok ⟨"k1"⟩ := by
  decide

/-- C7: get_acdc (which is exactly the internal get_sad_and_attachments used
by the ledger getters) returns the stored SAD bytes concatenated with the
stored attachment bytes, and fails with `Value` whenever either half is
missing from storage. -/
theorem get_acdc_halves (st : Store) (said : String) :
    (∀ sad atc, st.sads said = some sad → st.attachments said = some atc →
      get_acdc st said = .ok (sad ++ atc)) ∧
    (st.sads said = none ∨ st.attachments said = none →
      get_acdc st said = .err .Value) ∧
    get_acdc st said = get_sad_and_attachments st said := by
  refine ⟨?_, ?_, rfl⟩
  · intro sad atc hs ha
    simp [get_acdc, get_sad_and_attachments, hs, ha]
  · intro h
    rcases h with h | h
    · simp [get_acdc, get_sad_and_attachments, h]
    · cases hs : st.sads said <;>
        simp [get_acdc, get_sad_and_attachments, h, hs]

theorem get_acdc_halves_witness :
    get_acdc stc "s0" = .ok ("SAD" ++ "ATC") ∧ get_acdc stc "zz" = .err .Value :=
  ⟨(get_acdc_halves stc "s0").1 "SAD" "ATC" rfl rfl,
   (get_acdc_halves stc "zz").2.1 (Or.inl rfl)⟩

/-- C5: for a document string whose declared address field "d" parses as a
string, insert_sad succeeds, indexes the raw document under exactly that
declared address (no recomputation appears anywhere in the result), leaves
every other index unchanged, and get_sad on that address returns the parsed
document again. -/
theorem insert_sad_roundtrip (cd : Codec) (st : Store) (s : String) (v : Json)
    (label : String) (hp : cd.jsonParse s = .ok v)
    (hd : dStringOf v = .ok label) :
    insert_sad cd st s = .ok { st with sads := upd st.sads label s } ∧
    upd st.sads label s label = some s ∧
    get_sad cd { st with sads := upd st.sads label s } label = .ok v ∧
    (∀ q, q ≠ label → upd st.sads label s q = st.sads q) := by
  refine ⟨?_, upd_self .., ?_, fun q hq => upd_other _ _ hq⟩
  · simp [insert_sad, insert_sad_internal, hp, hd]
  · simp [get_sad, upd_self, hp]

theorem insert_sad_roundtrip_witness :
    insert_sad cd0 (Store.new "p") "X" =
      .ok { Store.new "p" with sads := upd (Store.new "p").sads "S" "X" } ∧
    get_sad cd0 { Store.new "p" with sads := upd (Store.new "p").sads "S" "X" }
      "S" = .ok (.obj [("d", .str "S")]) :=
  ⟨(insert_sad_roundtrip cd0 (Store.new "p") "X" (.obj [("d", .str "S")]) "S"
      rfl rfl).1,
   (insert_sad_roundtrip cd0 (Store.new "p") "X" (.obj [("d", .str "S")]) "S"
      rfl rfl).2.2.1⟩

theorem insert_event_ok (cd : Codec) (st : Store) (event : String) (s : Serder)
    (said : String) (v : Json) (label : String)
    (hs : cd.serder event = .ok s) (hsaid : s.saidR = .ok said)
    (hp : cd.jsonParse (event.take s.rawLen) = .ok v)
    (hd : dStringOf v = .ok label) :
    insert_event cd st event =
      .ok ({ st with
              sads := upd st.sads label (event.take s.rawLen),
              attachments := upd st.attachments said (event.drop s.rawLen) },
           said) := by
  simp [insert_event, insert_sad_internal, hs, hsaid, hp, hd]

theorem insert_key_event_ok (cd : Codec) (st : Store) (pre event : String)
    (s : Serder) (said : String) (v : Json) (label : String)
    (hs : cd.serder event = .ok s) (hsaid : s.saidR = .ok said)
    (hp : cd.jsonParse (event.take s.rawLen) = .ok v)
    (hd : dStringOf v = .ok label) :
    insert_key_event cd st pre event =
      .ok { st with
            sads := upd st.sads label (event.take s.rawLen),
            attachments := upd st.attachments said (event.drop s.rawLen),
            kels := upd st.kels pre (((st.kels pre).getD []) ++ [said]) } := by
  rw [insert_key_event]
  rw [insert_event_ok cd st event s said v label hs hsaid hp hd]
  cases hk : st.kels pre with
  | none => simp [hk, upd_upd]
  | some l => simp [hk]

theorem insert_transaction_event_ok (cd : Codec) (st : Store) (pre event : String)
    (s : Serder) (said : String) (v : Json) (label : String)
    (hs : cd.serder event = .ok s) (hsaid : s.saidR = .ok said)
    (hp : cd.jsonParse (event.take s.rawLen) = .ok v)
    (hd : dStringOf v = .ok label) :
    insert_transaction_event cd st pre event =
      .ok { st with
            sads := upd st.sads label (event.take s.rawLen),
            attachments := upd st.attachments said (event.drop s.rawLen),
            tels := upd st.tels pre (((st.tels pre).getD []) ++ [said]) } := by
  rw [insert_transaction_event]
  rw [insert_event_ok cd st event s said v label hs hsaid hp hd]
  cases hk : st.tels pre with
  | none => simp [hk, upd_upd]
  | some l => simp [hk]

/-- C8: for a framed event that the (coherent) parser accepts, insert_key_event
and insert_transaction_event split the input at the parser-reported raw
length, store the SAD prefix under its own address, store the attachment
suffix under the same address, and append that address to the subject's
ordered KEL (respectively TEL) list. -/
theorem insert_events_split_and_append (cd : Codec) (hco : Codec.coherent cd)
    (st : Store) (pre event : String) (s : Serder) (said : String) (v : Json)
    (label : String)
    (hs : cd.serder event = .ok s) (hsaid : s.saidR = .ok said)
    (hp : cd.jsonParse (event.take s.rawLen) = .ok v)
    (hd : dStringOf v = .ok label) :
    insert_key_event cd st pre event =
      .ok { st with
            sads := upd st.sads said (event.take s.rawLen),
            attachments := upd st.attachments said (event.drop s.rawLen),
            kels := upd st.kels pre (((st.kels pre).getD []) ++ [said]) } ∧
    insert_transaction_event cd st pre event =
      .ok { st with
            sads := upd st.sads said (event.take s.rawLen),
            attachments := upd st.attachments said (event.drop s.rawLen),
            tels := upd st.tels pre (((st.tels pre).getD []) ++ [said]) } := by
  have hl : label = said := hco event s said v label hs hsaid hp hd
  subst hl
  exact ⟨insert_key_event_ok cd st pre event s label v label hs hsaid hp hd,
         insert_transaction_event_ok cd st pre event s label v label hs hsaid hp hd⟩

theorem insert_events_split_and_append_witness :
    insert_key_event cd0 (Store.new "p") "i" "EVNT" =
      .ok { Store.new "p" with
            sads := upd (Store.new "p").sads "S" ("EVNT".take 2),
            attachments := upd (Store.new "p").attachments "S" ("EVNT".drop 2),
            kels := upd (Store.new "p").kels "i"
              ((((Store.new "p").kels "i").getD []) ++ ["S"]) } ∧
    insert_transaction_event cd0 (Store.new "p") "i" "EVNT" =
      .ok { Store.new "p" with
            sads := upd (Store.new "p").sads "S" ("EVNT".take 2),
            attachments := upd (Store.new "p").attachments "S" ("EVNT".drop 2),
            tels := upd (Store.new "p").tels "i"
              ((((Store.new "p").tels "i").getD []) ++ ["S"]) } :=
  insert_events_split_and_append cd0 cd0_coherent (Store.new "p") "i" "EVNT"
    ⟨.ok "S", 2, .ok true⟩ "S" (.obj [("d", .str "S")]) "S" rfl rfl rfl rfl

/-- C4: ingesting a ledger-affecting event whose prior-reference does not
match the address at the current tail of the subject's ledger fails with
`OutOfOrder` and returns the input store unchanged: no ledger entry is
appended and no document or attachment is stored for that event. (The
pipeline is modelled from the spec; its body is outside the example
sources.) -/
theorem ingest_out_of_order_unmodified (cd : Codec) (st : Store) (m : Msg)
    (hk : m.kind ≠ .credential)
    (hm : m.priorRef ≠ tailRef ((ledgerOf st m).getD [])) :
    ingest_message cd st m = (st, some .OutOfOrder) := by
  obtain ⟨kind, pre, prior, framed⟩ := m
  cases kind with
  | credential => exact absurd rfl hk
  | keyEvent =>
      simp only [ingest_message]
      rw [if_pos hm]
  | transactionEvent =>
      simp only [ingest_message]
      rw [if_pos hm]

def m0 : Msg := ⟨.keyEvent, "i", some "WRONG", "EVNT"⟩

theorem ingest_out_of_order_unmodified_witness :
    ingest_message cd0 stc m0 = (stc, some .OutOfOrder) :=
  ingest_out_of_order_unmodified cd0 stc m0 (by decide) (by decide)

theorem estOf_eq {cd : Codec} {e : String} {s : Serder}
    (h : cd.serder e = .ok s) : estOf cd e = s.estR := by
  unfold estOf
  rw [h]
  rfl

theorem estOf_err {cd : Codec} {e : String} {er : Error}
    (h : cd.serder e = .error er) : estOf cd e = .error er := by
  unfold estOf
  rw [h]
  rfl

theorem countEstLoop_ok (cd : Codec) :
    ∀ (l : List String), (∀ e ∈ l, isOkE (estOf cd e) = true) → ∀ c,
      countEstLoop cd l c = .ok (c + l.countP (fun e => isEstB cd e)) := by
  intro l
  induction l with
  | nil => intro _ c; simp [countEstLoop]
  | cons e rest ih =>
      intro hok c
      have he := hok e (List.mem_cons_self e rest)
      have hr : ∀ x ∈ rest, isOkE (estOf cd x) = true :=
        fun x hx => hok x (List.mem_cons_of_mem e hx)
      cases hs : cd.serder e with
      | error er => simp [isEstB, estOf_err hs, isOkE] at he
      | ok s =>
          cases hb : s.estR with
          | error er => simp [isEstB, estOf_eq hs, hb, isOkE] at he
          | ok b =>
              have hbe : isEstB cd e = b := by
                cases b <;> simp [isEstB, estOf_eq hs, hb]
              simp only [countEstLoop, hs, hb]
              rw [ih hr]
              rw [List.countP_cons]
              simp only [hbe]
              cases b
              · simp
              · simp
                omega

/-- C6: count_key_events and count_transaction_events return Ok 0 for a
never-seen subject, while count_establishment_events on a never-seen subject
fails with `Value`; on a known identifier whose KEL loads and parses,
count_establishment_events returns the number of establishment-kind events
in the KEL. -/
theorem count_events_spec (cd : Codec) (st : Store) (pre : String) :
    (st.kels pre = none →
      count_key_events st pre = .ok 0 ∧
      count_establishment_events cd st pre = .err .Value) ∧
    (st.tels pre = none → count_transaction_events st pre = .ok 0) ∧
    (∀ evs, get_kel st pre = .ok evs →
      (∀ e ∈ evs, isOkE (estOf cd e) = true) →
      count_establishment_events cd st pre =
        .ok (evs.countP (fun e => isEstB cd e))) := by
  refine ⟨?_, ?_, ?_⟩
  · intro h
    refine ⟨?_, ?_⟩
    · simp [count_key_events, h]
    · simp [count_establishment_events, get_kel, h]
  · intro h
    simp [count_transaction_events, h]
  · intro evs hkel hok
    simp [count_establishment_events, hkel, countEstLoop_ok cd evs hok 0]

theorem count_events_spec_witness :
    count_key_events (Store.new "p") "x" = .ok 0 ∧
    count_establishment_events cd0 (Store.new "p") "x" = .err .Value ∧
    count_transaction_events (Store.new "p") "x" = .ok 0 ∧
    count_establishment_events cd0 stc "i" = .ok 1 := by
  have h := count_events_spec cd0 (Store.new "p") "x"
  have h2 := (count_events_spec cd0 stc "i").2.2 ["SADATC"] rfl (by decide)
  have hc : List.countP (fun e => isEstB cd0 e) ["SADATC"] = 1 := by decide
  rw [hc] at h2
  exact ⟨(h.1 rfl).1, (h.1 rfl).2, h.2.1 rfl, h2⟩

/-- Position-indexed form of the reversed scan: `estAux cd sn kel n` scans
positions n-1, n-2, ..., 0 of the KEL. -/
def estAux (cd : Codec) (sn : Nat) (kel : List String) : Nat → Res (String × Nat)
  | 0 => .err .Value
  | n + 1 =>
      if n > sn then estAux cd sn kel n
      else match cd.serder (kel.getD n "") with
        | .error er => .err er
        | .ok s =>
            match s.estR with
            | .error er => .err er
            | .ok true => .ok (kel.getD n "", n)
            | .ok false => estAux cd sn kel n

theorem take_succ_getD {α : Type} (d : α) :
    ∀ (l : List α) (n : Nat), n < l.length →
      l.take (n + 1) = l.take n ++ [l.getD n d] := by
  intro l
  induction l with
  | nil =>
      intro n h
      simp at h
  | cons a t ih =>
      intro n h
      cases n with
      | zero => simp
      | succ m =>
          simp only [List.take_succ_cons, List.getD_cons_succ]
          rw [ih m (by simpa using h)]
          simp

theorem getD_mem {α : Type} (d : α) :
    ∀ (l : List α) (n : Nat), n < l.length → l.getD n d ∈ l := by
  intro l
  induction l with
  | nil =>
      intro n h
      simp at h
  | cons a t ih =>
      intro n h
      cases n with
      | zero => simp
      | succ m =>
          rw [List.getD_cons_succ]
          exact List.mem_cons_of_mem a (ih m (by simpa using h))

theorem estScanRev_take (cd : Codec) (sn : Nat) (kel : List String) :
    ∀ n, n ≤ kel.length →
      estScanRev cd kel.length sn ((kel.take n).reverse) (kel.length - n) =
        estAux cd sn kel n := by
  intro n
  induction n with
  | zero =>
      intro _
      simp [estScanRev, estAux]
  | succ m ih =>
      intro h
      have hm : m < kel.length := h
      rw [take_succ_getD "" kel m hm, List.reverse_append]
      simp only [List.reverse_cons, List.reverse_nil, List.nil_append,
        List.singleton_append]
      rw [estScanRev]
      have harith : kel.length - (kel.length - (m + 1)) - 1 = m := by omega
      have hnext : kel.length - (m + 1) + 1 = kel.length - m := by omega
      rw [harith, hnext, ih (le_of_lt hm)]
      simp only [estAux]

theorem estAux_none (cd : Codec) (sn : Nat) (kel : List String) :
    ∀ n, (∀ j, j < n → j ≤ sn →
        isOkE (estOf cd (kel.getD j "")) = true ∧
        isEstB cd (kel.getD j "") = false) →
      estAux cd sn kel n = .err .Value := by
  intro n
  induction n with
  | zero =>
      intro _
      simp [estAux]
  | succ m ih =>
      intro h
      simp only [estAux]
      by_cases hgt : m > sn
      · rw [if_pos hgt]
        exact ih fun j hj hjs => h j (Nat.lt_succ_of_lt hj) hjs
      · rw [if_neg hgt]
        obtain ⟨hok, hfalse⟩ := h m (Nat.lt_succ_self m) (by omega)
        cases hs : cd.serder (kel.getD m "") with
        | error er =>
            rw [estOf_err hs] at hok
            simp [isOkE] at hok
        | ok s =>
            cases hb : s.estR with
            | error er =>
                rw [estOf_eq hs, hb] at hok
                simp [isOkE] at hok
            | ok b =>
                cases b with
                | true =>
                    have hT : isEstB cd (kel.getD m "") = true := by
                      unfold isEstB
                      rw [estOf_eq hs, hb]
                    rw [hT] at hfalse
                    exact Bool.noConfusion hfalse
                | false =>
                    simp only [hs, hb]
                    exact ih fun j hj hjs => h j (Nat.lt_succ_of_lt hj) hjs

theorem estAux_found (cd : Codec) (sn : Nat) (kel : List String) (j0 : Nat)
    (hj0sn : j0 ≤ sn) (hest : isEstB cd (kel.getD j0 "") = true) :
    ∀ n, j0 < n →
      (∀ k, j0 < k → k < n → k ≤ sn →
        isOkE (estOf cd (kel.getD k "")) = true ∧
        isEstB cd (kel.getD k "") = false) →
      estAux cd sn kel n = .ok (kel.getD j0 "", j0) := by
  intro n
  induction n with
  | zero =>
      intro hlt _
      exact absurd hlt (Nat.not_lt_zero j0)
  | succ m ih =>
      intro hlt h
      simp only [estAux]
      by_cases hgt : m > sn
      · rw [if_pos hgt]
        have hj0m : j0 < m := by omega
        exact ih hj0m fun k hk1 hk2 hk3 => h k hk1 (Nat.lt_succ_of_lt hk2) hk3
      · rw [if_neg hgt]
        by_cases he : j0 = m
        · subst he
          have hT : estOf cd (kel.getD j0 "") = .ok true := by
            revert hest
            unfold isEstB
            cases hx : estOf cd (kel.getD j0 "") with
            | ok b => cases b <;> simp
            | error er => simp
          cases hs : cd.serder (kel.getD j0 "") with
          | error er =>
              rw [estOf_err hs] at hT
              exact Except.noConfusion hT
          | ok s =>
              have hb : s.estR = .ok true := by
                rw [estOf_eq hs] at hT
                exact hT
              simp [hs, hb]
        · have hj0m : j0 < m := by omega
          obtain ⟨hok, hfalse⟩ := h m (by omega) (Nat.lt_succ_self m) (by omega)
          cases hs : cd.serder (kel.getD m "") with
          | error er =>
              rw [estOf_err hs] at hok
              simp [isOkE] at hok
          | ok s =>
              cases hb : s.estR with
              | error er =>
                  rw [estOf_eq hs, hb] at hok
                  simp [isOkE] at hok
              | ok b =>
                  cases b with
                  | true =>
                      have hT : isEstB cd (kel.getD m "") = true := by
                        unfold isEstB
                        rw [estOf_eq hs, hb]
                      rw [hT] at hfalse
                      exact Bool.noConfusion hfalse
                  | false =>
                      simp only [hs, hb]
                      exact ih hj0m fun k hk1 hk2 hk3 =>
                        h k hk1 (Nat.lt_succ_of_lt hk2) hk3

/-- C3: for an identifier with a non-empty KEL whose events all parse,
get_latest_establishment_event_as_of_sn returns the establishment-kind event
of greatest sequence number not exceeding the bound, paired with that
sequence number, and fails with `Value` when no establishment event at or
below the bound exists. -/
theorem latest_est_as_of_sn_spec (cd : Codec) (st : Store) (pre : String)
    (sn : Nat) (kel : List String)
    (hkel : get_kel st pre = .ok kel) (_hne : kel ≠ [])
    (hok : ∀ e ∈ kel, isOkE (estOf cd e) = true) :
    (∀ j0, j0 < kel.length → j0 ≤ sn → isEstB cd (kel.getD j0 "") = true →
      (∀ k, k < kel.length → k ≤ sn → isEstB cd (kel.getD k "") = true →
        k ≤ j0) →
      get_latest_establishment_event_as_of_sn cd st pre sn =
        .ok (kel.getD j0 "", j0)) ∧
    ((∀ k, k < kel.length → k ≤ sn → isEstB cd (kel.getD k "") = false) →
      get_latest_establishment_event_as_of_sn cd st pre sn = .err .Value) := by
  have hred : get_latest_establishment_event_as_of_sn cd st pre sn =
      estAux cd sn kel kel.length := by
    unfold get_latest_establishment_event_as_of_sn
    rw [hkel]
    have hbr := estScanRev_take cd sn kel kel.length (le_refl _)
    simp only [List.take_length, Nat.sub_self] at hbr
    simpa using hbr
  constructor
  · intro j0 hj0len hj0sn hest hmax
    rw [hred]
    apply estAux_found cd sn kel j0 hj0sn hest kel.length hj0len
    intro k hk1 hk2 hk3
    refine ⟨hok _ (getD_mem "" kel k hk2), ?_⟩
    cases hkb : isEstB cd (kel.getD k "") with
    | false => rfl
    | true => exact absurd (hmax k hk2 hk3 hkb) (by omega)
  · intro hnone
    rw [hred]
    apply estAux_none
    intro j hj hjs
    exact ⟨hok _ (getD_mem "" kel j hj), hnone j hj hjs⟩

theorem latest_est_as_of_sn_spec_witness :
    get_latest_establishment_event_as_of_sn cd0 stc "i" 5 =
      .ok ("SADATC", 0) := by
  have h := (latest_est_as_of_sn_spec cd0 stc "i" 5 ["SADATC"] (by decide)
    (by decide) (by decide)).1 0 (by decide) (by decide) (by decide)
    (fun k h1 h2 h3 => by simp at h1; omega)
  simpa using h

/-- C9: fetch_acdc always passes the expander the top attribute block path
`["a"]` plus `["a", key]` for each requested key; it returns the expanded
SAD JSON followed by the original attachment bytes unmodified (the suffix of
the stored credential past the parser-reported raw length); with full
provenance it prepends the issuer's full KEL plus the registry's and the
credential's full TELs. The equations are provable for an arbitrary opaque
expander only because the code calls it with exactly the stated path list. -/
theorem fetch_acdc_bundle_shape (cd : Codec) (ex : Expander) (v : Vault)
    (said : String) (to_disclose : List String) (acdcStr : String)
    (cr : Creder) (expd : Expanded) (issuer : String) (kel : List String)
    (reg : String) (mgmtTel : List String) (csaid : String)
    (vcTel : List String) (json : String)
    (h1 : get_acdc v.store said = .ok acdcStr)
    (h2 : cd.creder acdcStr = .ok cr)
    (h3 : ex cr (["a"] :: to_disclose.map (fun key => ["a", key])) v.store =
      .ok expd)
    (h4 : expd.issuerR = .ok issuer)
    (h5 : get_kel v.store issuer = .ok kel)
    (h6 : cr.statusR = .ok (some reg))
    (h7 : get_tel v.store reg = .ok mgmtTel)
    (h8 : cr.saidR = .ok csaid)
    (h9 : get_tel v.store csaid = .ok vcTel)
    (h10 : expd.crdJsonR = .ok json) :
    fetch_acdc cd ex v said to_disclose true =
      .ok ((String.join kel ++ String.join mgmtTel ++ String.join vcTel) ++
        (json ++ acdcStr.drop cr.rawLen)) ∧
    fetch_acdc cd ex v said to_disclose false =
      .ok (json ++ acdcStr.drop cr.rawLen) := by
  constructor
  · simp [fetch_acdc, h1, h2, h3, h4, h5, h6, h7, h8, h9, h10]
  · simp [fetch_acdc, h1, h2, h3, h10]

/-- Codec for the fetch_acdc witness: credentials report SAID "CS2", raw
length 1, registry "REG". -/
def cdF : Codec :=
  { cd0 with creder := fun _ => .ok ⟨.ok "CS2", 1, .ok (some "REG")⟩ }

/-- Expander for the fetch_acdc witness: issuer "ISS", expanded JSON "JX". -/
def exF : Expander :=
  fun _ _ _ => .ok ⟨.ok "ISS", .ok "JX"⟩

/-- Concrete store for the fetch_acdc witness: a credential at "CS", an
issuer KEL at "ISS", and TELs for "REG" and "CS2". -/
def stv : Store where
  pfx := "p"
  keys := fun _ => none
  sads := fun q =>
    if q = "CS" then some "A" else if q = "k0" then some "K"
    else if q = "t0" then some "T" else if q = "c0" then some "C" else none
  attachments := fun q =>
    if q = "CS" then some "B" else if q = "k0" then some "L"
    else if q = "t0" then some "U" else if q = "c0" then some "D" else none
  acdcs := fun _ => none
  tels := fun q =>
    if q = "REG" then some ["t0"] else if q = "CS2" then some ["c0"] else none
  kels := fun q => if q = "ISS" then some ["k0"] else none

def vltF : Vault := ⟨stv, "p", "REG"⟩

theorem fetch_acdc_bundle_shape_witness :
    fetch_acdc cdF exF vltF "CS" ["age"] true =
      .ok ((String.join ["KL"] ++ String.join ["TU"] ++ String.join ["CD"]) ++
        ("JX" ++ "AB".drop 1)) ∧
    fetch_acdc cdF exF vltF "CS" ["age"] false = .ok ("JX" ++ "AB".drop 1) :=
  fetch_acdc_bundle_shape cdF exF vltF "CS" ["age"] "AB"
    ⟨.ok "CS2", 1, .ok (some "REG")⟩ ⟨.ok "ISS", .ok "JX"⟩ "ISS" ["KL"] "REG"
    ["TU"] "CS2" ["CD"] "JX" rfl rfl rfl rfl rfl rfl rfl rfl rfl rfl

theorem inv_mono (st st' : Store) (hk : st'.kels = st.kels)
    (ht : st'.tels = st.tels)
    (hs : ∀ a, (st.sads a).isSome = true → (st'.sads a).isSome = true)
    (ha : ∀ a, (st.attachments a).isSome = true →
      (st'.attachments a).isSome = true)
    (h : Inv st) : Inv st' := by
  obtain ⟨h1, h2⟩ := h
  constructor
  · intro pre l hl a hal
    rw [hk] at hl
    obtain ⟨x, y⟩ := h1 pre l hl a hal
    exact ⟨hs a x, ha a y⟩
  · intro pre l hl a hal
    rw [ht] at hl
    obtain ⟨x, y⟩ := h2 pre l hl a hal
    exact ⟨hs a x, ha a y⟩

theorem insert_keys_fields {cd : Codec} {st : Store} {pre : String}
    {ks : KeySet} {st' : Store} (h : insert_keys cd st pre ks = .ok st') :
    st'.kels = st.kels ∧ st'.tels = st.tels ∧ st'.sads = st.sads ∧
    st'.attachments = st.attachments := by
  unfold insert_keys at h
  cases hj : cd.keySetJson ks with
  | error e => simp [hj] at h
  | ok value =>
      rw [hj] at h
      by_cases hc : (st.keys pre).isSome
      · simp only [if_pos hc, Res.ok.injEq] at h
        subst h
        exact ⟨rfl, rfl, rfl, rfl⟩
      · simp only [if_neg hc, Res.ok.injEq] at h
        subst h
        exact ⟨rfl, rfl, rfl, rfl⟩

theorem insert_sad_internal_fields {cd : Codec} {st : Store} {s : String}
    {st' : Store} (h : insert_sad_internal cd st s = .ok st') :
    st'.kels = st.kels ∧ st'.tels = st.tels ∧
    (∃ label, st'.sads = upd st.sads label s) ∧
    st'.attachments = st.attachments := by
  unfold insert_sad_internal at h
  cases hp : cd.jsonParse s with
  | error e => simp [hp] at h
  | ok v =>
      cases hd : dStringOf v with
      | error e => simp [hp, hd] at h
      | ok label =>
          simp only [hp, hd, Res.ofE_ok, Res.ok_bind, Res.pure_eq,
            Res.ok.injEq] at h
          subst h
          exact ⟨rfl, rfl, ⟨label, rfl⟩, rfl⟩

theorem inv_insert_keys {cd : Codec} {st : Store} {pre : String} {ks : KeySet}
    {st' : Store} (h : insert_keys cd st pre ks = .ok st') (hi : Inv st) :
    Inv st' := by
  obtain ⟨hk, ht, hs, ha⟩ := insert_keys_fields h
  exact inv_mono st st' hk ht (fun a x => by rw [hs]; exact x)
    (fun a x => by rw [ha]; exact x) hi

theorem inv_insert_sad {cd : Codec} {st : Store} {s : String} {st' : Store}
    (h : insert_sad cd st s = .ok st') (hi : Inv st) : Inv st' := by
  have h' : insert_sad_internal cd st s = .ok st' := h
  obtain ⟨hk, ht, ⟨label, hs⟩, ha⟩ := insert_sad_internal_fields h'
  exact inv_mono st st' hk ht
    (fun a x => by rw [hs]; exact upd_isSome _ _ x)
    (fun a x => by rw [ha]; exact x) hi

theorem inv_insert_acdc {cd : Codec} {st : Store} {a : String} {issued : Bool}
    {st' : Store} (h : insert_acdc cd st a issued = .ok st') (hi : Inv st) :
    Inv st' := by
  unfold insert_acdc at h
  cases hc : cd.creder a with
  | error e => simp [hc] at h
  | ok cr =>
      rw [hc] at h
      simp only [Res.ofE_ok, Res.ok_bind] at h
      cases hsd : cr.saidR with
      | error e => rw [hsd] at h; simp at h
      | ok said =>
          rw [hsd] at h
          simp only [Res.ofE_ok, Res.ok_bind] at h
          cases hl : st.acdcs (if issued then "issued" else "received") with
          | none => rw [hl] at h; simp at h
          | some l =>
              rw [hl] at h
              simp only [Res.pure_eq, Res.ok_bind] at h
              cases h2 : insert_sad_internal cd { st with acdcs := upd st.acdcs (if issued then "issued" else "received") (l ++ [said]) } (a.take cr.rawLen) with
              | err e => rw [h2] at h; simp at h
              | crash => rw [h2] at h; simp at h
              | ok st2 =>
                  rw [h2] at h
                  simp only [Res.ok_bind, Res.pure_eq, Res.ok.injEq] at h
                  subst h
                  obtain ⟨hk, ht, ⟨label, hs⟩, ha⟩ :=
                    insert_sad_internal_fields h2
                  refine inv_mono st _ ?_ ?_ (fun q x => ?_) (fun q x => ?_) hi
                  · exact hk
                  · exact ht
                  · show (st2.sads q).isSome = true
                    rw [hs]
                    exact upd_isSome _ _ x
                  · show ((upd st2.attachments said
                        (a.drop cr.rawLen)) q).isSome = true
                    refine upd_isSome _ _ ?_
                    rw [ha]
                    exact x

theorem insert_event_fields {cd : Codec} {st : Store} {e : String}
    {p : Store × String} (h : insert_event cd st e = .ok p) :
    ∃ s said v label, cd.serder e = .ok s ∧ s.saidR = .ok said ∧
      cd.jsonParse (e.take s.rawLen) = .ok v ∧ dStringOf v = .ok label ∧
      p = ({ st with
              sads := upd st.sads label (e.take s.rawLen),
              attachments := upd st.attachments said (e.drop s.rawLen) },
           said) := by
  unfold insert_event insert_sad_internal at h
  cases hs : cd.serder e with
  | error er => simp [hs] at h
  | ok s =>
      cases hsd : s.saidR with
      | error er => simp [hs, hsd] at h
      | ok said =>
          cases hp : cd.jsonParse (e.take s.rawLen) with
          | error er => simp [hs, hsd, hp] at h
          | ok v =>
              cases hd : dStringOf v with
              | error er => simp [hs, hsd, hp, hd] at h
              | ok label =>
                  simp only [hs, hsd, hp, hd, Res.ofE_ok, Res.ok_bind,
                    Res.pure_eq, Res.ok.injEq] at h
                  exact ⟨s, said, v, label, rfl, hsd, hp, hd, h.symm⟩

theorem inv_insert_key_event {cd : Codec} (hco : Codec.coherent cd)
    {st : Store} {pre e : String} {st' : Store}
    (h : insert_key_event cd st pre e = .ok st') (hi : Inv st) : Inv st' := by
  have hex : ∃ p, insert_event cd st e = .ok p := by
    unfold insert_key_event at h
    cases hie : insert_event cd st e with
    | ok p => exact ⟨p, rfl⟩
    | err er => rw [hie] at h; simp at h
    | crash => rw [hie] at h; simp at h
  obtain ⟨p, hie⟩ := hex
  obtain ⟨s, said, v, label, hs, hsd, hp, hd, hP⟩ := insert_event_fields hie
  have hl : label = said := hco e s said v label hs hsd hp hd
  subst hl
  rw [insert_key_event_ok cd st pre e s label v label hs hsd hp hd] at h
  have hst : st' = { st with
      sads := upd st.sads label (e.take s.rawLen),
      attachments := upd st.attachments label (e.drop s.rawLen),
      kels := upd st.kels pre (((st.kels pre).getD []) ++ [label]) } := by
    cases h
    rfl
  subst hst
  obtain ⟨h1, h2⟩ := hi
  constructor
  · intro pr l hlk a hal
    have hlk' : upd st.kels pre (((st.kels pre).getD []) ++ [label]) pr =
        some l := hlk
    by_cases hpr : pr = pre
    · subst hpr
      rw [upd_self] at hlk'
      cases hlk'
      rcases List.mem_append.mp hal with hmem | hmem
      · cases hk0 : st.kels pr with
        | none => rw [hk0] at hmem; simp at hmem
        | some l0 =>
            rw [hk0] at hmem
            simp only [Option.getD_some] at hmem
            obtain ⟨x, y⟩ := h1 pr l0 hk0 a hmem
            exact ⟨upd_isSome _ _ x, upd_isSome _ _ y⟩
      · have haS : a = label := by simpa using hmem
        subst haS
        exact ⟨by simp [upd_self], by simp [upd_self]⟩
    · rw [upd_other _ _ hpr] at hlk'
      obtain ⟨x, y⟩ := h1 pr l hlk' a hal
      exact ⟨upd_isSome _ _ x, upd_isSome _ _ y⟩
  · intro pr l hlt a hal
    have hlt' : st.tels pr = some l := hlt
    obtain ⟨x, y⟩ := h2 pr l hlt' a hal
    exact ⟨upd_isSome _ _ x, upd_isSome _ _ y⟩

theorem inv_insert_transaction_event {cd : Codec} (hco : Codec.coherent cd)
    {st : Store} {pre e : String} {st' : Store}
    (h : insert_transaction_event cd st pre e = .ok st') (hi : Inv st) :
    Inv st' := by
  have hex : ∃ p, insert_event cd st e = .ok p := by
    unfold insert_transaction_event at h
    cases hie : insert_event cd st e with
    | ok p => exact ⟨p, rfl⟩
    | err er => rw [hie] at h; simp at h
    | crash => rw [hie] at h; simp at h
  obtain ⟨p, hie⟩ := hex
  obtain ⟨s, said, v, label, hs, hsd, hp, hd, hP⟩ := insert_event_fields hie
  have hl : label = said := hco e s said v label hs hsd hp hd
  subst hl
  rw [insert_transaction_event_ok cd st pre e s label v label hs hsd hp hd] at h
  have hst : st' = { st with
      sads := upd st.sads label (e.take s.rawLen),
      attachments := upd st.attachments label (e.drop s.rawLen),
      tels := upd st.tels pre (((st.tels pre).getD []) ++ [label]) } := by
    cases h
    rfl
  subst hst
  obtain ⟨h1, h2⟩ := hi
  constructor
  · intro pr l hlk a hal
    have hlk' : st.kels pr = some l := hlk
    obtain ⟨x, y⟩ := h1 pr l hlk' a hal
    exact ⟨upd_isSome _ _ x, upd_isSome _ _ y⟩
  · intro pr l hlt a hal
    have hlt' : upd st.tels pre (((st.tels pre).getD []) ++ [label]) pr =
        some l := hlt
    by_cases hpr : pr = pre
    · subst hpr
      rw [upd_self] at hlt'
      cases hlt'
      rcases List.mem_append.mp hal with hmem | hmem
      · cases hk0 : st.tels pr with
        | none => rw [hk0] at hmem; simp at hmem
        | some l0 =>
            rw [hk0] at hmem
            simp only [Option.getD_some] at hmem
            obtain ⟨x, y⟩ := h2 pr l0 hk0 a hmem
            exact ⟨upd_isSome _ _ x, upd_isSome _ _ y⟩
      · have haS : a = label := by simpa using hmem
        subst haS
        exact ⟨by simp [upd_self], by simp [upd_self]⟩
    · rw [upd_other _ _ hpr] at hlt'
      obtain ⟨x, y⟩ := h2 pr l hlt' a hal
      exact ⟨upd_isSome _ _ x, upd_isSome _ _ y⟩

theorem getAll_isOk {st : Store} :
    ∀ saids, (∀ a ∈ saids, StoredBoth st a) →
      (getAll st saids).isOk = true := by
  intro saids
  induction saids with
  | nil =>
      intro _
      simp [getAll, Res.isOk]
  | cons a rest ih =>
      intro h
      obtain ⟨x, y⟩ := h a (List.mem_cons_self a rest)
      obtain ⟨sad, hsad⟩ := Option.isSome_iff_exists.mp x
      obtain ⟨atc, hatc⟩ := Option.isSome_iff_exists.mp y
      have hr := ih fun b hb => h b (List.mem_cons_of_mem a hb)
      cases hrest : getAll st rest with
      | ok l =>
          simp [getAll, get_sad_and_attachments, hsad, hatc, hrest, Res.isOk]
      | err e => rw [hrest] at hr; simp [Res.isOk] at hr
      | crash => rw [hrest] at hr; simp [Res.isOk] at hr

theorem inv_get_kel_isOk {st : Store} {pre : String} {l : List String}
    (hi : Inv st) (hl : st.kels pre = some l) :
    (get_kel st pre).isOk = true := by
  unfold get_kel
  rw [hl]
  exact getAll_isOk l (hi.1 pre l hl)

theorem inv_get_tel_isOk {st : Store} {pre : String} {l : List String}
    (hi : Inv st) (hl : st.tels pre = some l) :
    (get_tel st pre).isOk = true := by
  unfold get_tel
  rw [hl]
  exact getAll_isOk l (hi.2 pre l hl)

theorem inv_get_key_event_isOk {st : Store} {pre : String} {l : List String}
    {v : Nat} (hi : Inv st) (hl : st.kels pre = some l) (hv : v < l.length) :
    (get_key_event st pre v).isOk = true := by
  unfold get_key_event
  rw [hl]
  dsimp only
  rw [if_neg (by omega)]
  rw [dif_pos hv]
  obtain ⟨x, y⟩ := hi.1 pre l hl (l.get ⟨v, hv⟩) (l.get_mem v hv)
  obtain ⟨sad, hsad⟩ := Option.isSome_iff_exists.mp x
  obtain ⟨atc, hatc⟩ := Option.isSome_iff_exists.mp y
  unfold get_sad_and_attachments
  rw [hsad, hatc]
  rfl

theorem inv_get_transaction_event_isOk {st : Store} {pre : String}
    {l : List String} {v : Nat} (hi : Inv st) (hl : st.tels pre = some l)
    (hv : v < l.length) :
    (get_transaction_event st pre v).isOk = true := by
  unfold get_transaction_event
  rw [hl]
  dsimp only
  rw [if_neg (by omega)]
  rw [dif_pos hv]
  obtain ⟨x, y⟩ := hi.2 pre l hl (l.get ⟨v, hv⟩) (l.get_mem v hv)
  obtain ⟨sad, hsad⟩ := Option.isSome_iff_exists.mp x
  obtain ⟨atc, hatc⟩ := Option.isSome_iff_exists.mp y
  unfold get_sad_and_attachments
  rw [hsad, hatc]
  rfl

/-- C10: on every store reachable from Store::new by successful store
operations under a coherent parser, every address present in a KEL or TEL
list has both the SAD half and the attachment half in storage, so
retrieving any in-range ledger entry via get_key_event,
get_transaction_event, get_kel or get_tel succeeds (in particular it never
fails with the missing-half Value error). -/
theorem reachable_ledger_halves (cd : Codec) (hco : Codec.coherent cd)
    (st : Store) (hr : Reachable cd st) :
    Inv st ∧
    (∀ pre l v, st.kels pre = some l → v < l.length →
      (get_key_event st pre v).isOk = true) ∧
    (∀ pre l v, st.tels pre = some l → v < l.length →
      (get_transaction_event st pre v).isOk = true) ∧
    (∀ pre l, st.kels pre = some l → (get_kel st pre).isOk = true) ∧
    (∀ pre l, st.tels pre = some l → (get_tel st pre).isOk = true) := by
  have hinv : Inv st := by
    induction hr with
    | new p =>
        constructor
        · intro pre l hl a hal
          simp [Store.new] at hl
        · intro pre l hl a hal
          simp [Store.new] at hl
    | keys st1 st2 pre ks hr1 hok ih => exact inv_insert_keys hok ih
    | sad st1 st2 s hr1 hok ih => exact inv_insert_sad hok ih
    | acdc st1 st2 a issued hr1 hok ih => exact inv_insert_acdc hok ih
    | key_event st1 st2 pre e hr1 hok ih =>
        exact inv_insert_key_event hco hok ih
    | transaction_event st1 st2 pre e hr1 hok ih =>
        exact inv_insert_transaction_event hco hok ih
  refine ⟨hinv, ?_, ?_, ?_, ?_⟩
  · intro pre l v hl hv
    exact inv_get_key_event_isOk hinv hl hv
  · intro pre l v hl hv
    exact inv_get_transaction_event_isOk hinv hl hv
  · intro pre l hl
    exact inv_get_kel_isOk hinv hl
  · intro pre l hl
    exact inv_get_tel_isOk hinv hl

/-- The store obtained by inserting one framed key event into a fresh store. -/
def st10 : Store :=
  match insert_key_event cd0 (Store.new "p") "i" "EVNT" with
  | .ok s => s
  | _ => Store.new "p"

theorem reachable_ledger_halves_witness :
    (get_key_event st10 "i" 0).isOk = true ∧
    (get_kel st10 "i").isOk = true := by
  have hr : Reachable cd0 st10 :=
    Reachable.key_event (Store.new "p") st10 "i" "EVNT"
      (Reachable.new "p") rfl
  have h := reachable_ledger_halves cd0 cd0_coherent st10 hr
  exact ⟨h.2.1 "i" ["S"] 0 rfl (by decide), h.2.2.2.1 "i" ["S"] rfl⟩

end KeriAcdc
